import Mathlib

/-!
Verification of the analyzer pipeline and merge engine of the
design-system-mcp repository (src/parsers/parser-chain.ts and
src/parsers/parser-interface.ts), shallowly embedded in Lean 4.

JavaScript `Map<string, V>` and plain objects preserve key insertion
order, and setting an existing key updates the value in place without
moving the key.  Both are embedded as association lists
`List (String × V)` with `jsSet` / `jsLookup` / `jsHas` below.
JavaScript optional fields (`field?: T`) are embedded as `Option T`,
with `none` standing for an absent key.  Truthiness of a string
(`s || t`) is embedded as a test against the empty string.
-/

/-- JavaScript Map.set / object-key assignment: update the value in place
if the key is present (keeping its position), otherwise append the pair. -/
def jsSet {α : Type} (k : String) (v : α) : List (String × α) → List (String × α)
  | [] => [(k, v)]
  | (k', v') :: rest => if k' == k then (k, v) :: rest else (k', v') :: jsSet k v rest

/-- JavaScript Map.get / object-key lookup. -/
def jsLookup {α : Type} : List (String × α) → String → Option α
  | [], _ => none
  | (k', v') :: rest, k => if k' == k then some v' else jsLookup rest k

/-- JavaScript Map.has. -/
def jsHas {α : Type} : List (String × α) → String → Bool
  | [], _ => false
  | (k', _) :: rest, k => k' == k || jsHas rest k

/-- Spread of one record over another: for objects, `{...r1, ...r2}`. -/
def jsMergeRecords {α : Type} (r1 r2 : List (String × α)) : List (String × α) :=
  r2.foldl (fun acc kv => jsSet kv.fst kv.snd acc) r1

/-- JavaScript String.prototype.toLowerCase(), written as a map over the
character list.  (This is extensionally the per-character lowering of
String.toLower, stated over `data` so that it evaluates inside the
kernel.) -/
def jsToLower (s : String) : String :=
  String.mk (s.data.map Char.toLower)

/-- JavaScript String.prototype.trim(): strip leading and trailing
whitespace, written over the character list so that it evaluates inside
the kernel.  Used only to state the spec's claimed trimmed identity. -/
def jsTrim (s : String) : String :=
  String.mk (((s.data.dropWhile Char.isWhitespace).reverse.dropWhile
    Char.isWhitespace).reverse)

/-- JavaScript `a || b` on optional strings: `a` when present and non-empty
(truthy), otherwise `b`. -/
def jsOr (a b : Option String) : Option String :=
  match a with
  | some s => if s = "" then b else some s
  | none => b

/-- PropDefinition from parser-interface.ts. -/
structure PropDefinition where
  name : String
  type : String
  required : Bool
  description : Option String
  defaultValue : Option String
deriving DecidableEq

/-- SlotDefinition from parser-interface.ts. -/
structure SlotDefinition where
  name : String
  description : Option String
  required : Bool
deriving DecidableEq

/-- ExampleDefinition from parser-interface.ts. -/
structure ExampleDefinition where
  title : String
  code : String
  description : Option String
deriving DecidableEq

/-- AccessibilityInfo from parser-interface.ts; the `type` union
('aria-label' | 'keyboard-support' | 'semantic-role' | 'other') is
embedded as a string. -/
structure AccessibilityInfo where
  type : String
  value : String
  description : Option String
deriving DecidableEq

/-- Diagnostic from parser-interface.ts; the `level` union
('error' | 'warning' | 'info') is embedded as a string. -/
structure Diagnostic where
  level : String
  message : String
  source : Option String
  line : Option Nat
deriving DecidableEq

/-- ComponentAnalysis from parser-interface.ts, parameterised by the type
of `customData` values so that the record can be tied recursively to the
values stored inside custom data. -/
structure ComponentAnalysisF (δ : Type) where
  name : String
  description : String
  category : Option String
  tags : Option (List String)
  importPath : Option String
  props : Option (List PropDefinition)
  slots : Option (List SlotDefinition)
  examples : Option (List ExampleDefinition)
  dependencies : Option (List String)
  relatedComponents : Option (List String)
  accessibility : Option (List AccessibilityInfo)
  customData : Option (List (String × δ))

/-- Values that parser-chain.ts stores under `customData` keys: the
`parsers` contributor list, a whole ComponentAnalysis (under a
provenance key such as `<parser>_data` or `previousData`), and the
per-parser contribution snapshot of the merge strategy. Arbitrary
analyzer-supplied payloads are embedded as strings. -/
inductive CustomValue : Type where
  | str : String → CustomValue
  | strList : List String → CustomValue
  | record : ComponentAnalysisF CustomValue → CustomValue
  | contribution : String → Option (List String) → Option (List PropDefinition) →
      Option (List AccessibilityInfo) → CustomValue

/-- ComponentAnalysis with recursive custom data, as in the source. -/
abbrev ComponentAnalysis := ComponentAnalysisF CustomValue

/-- ParseResult from parser-interface.ts. -/
structure ParseResult where
  parser : String
  timestamp : String
  components : List ComponentAnalysis
  metadata : Option (List (String × CustomValue))
  diagnostics : Option (List Diagnostic)

/-- The `existing.customData?.parsers || []` access in parser-chain.ts:
the contributor list stored under the `parsers` key, defaulting to the
empty list when customData or the key is absent.  (The code only ever
stores a string list under this key.) -/
def parsersOf (cd : Option (List (String × CustomValue))) : List String :=
  match cd with
  | none => []
  | some r =>
    match jsLookup r "parsers" with
    | some (CustomValue.strList l) => l
    | _ => []

/-- First occurrence of an unseen component key in mergeResults
(parser-chain.ts lines 145-153): seed the map entry from the record and
tag it with the contributing parser, `customData` being
`{...component.customData, parsers: [result.parser]}`. -/
def seedComponent (p : String) (component : ComponentAnalysis) : ComponentAnalysis :=
  { component with
    customData := some (jsSet "parsers" (CustomValue.strList [p])
      (component.customData.getD [])) }

/-- The `append` branch of mergeResults (parser-chain.ts lines 157-169):
keep the existing entity, store the new record verbatim under
`<parser>_data`, and extend the contributor list. -/
def appendExisting (p : String) (existing component : ComponentAnalysis) : ComponentAnalysis :=
  { existing with
    customData := some (jsSet "parsers"
      (CustomValue.strList (parsersOf existing.customData ++ [p]))
      (jsSet (p ++ "_data") (CustomValue.record component)
        (existing.customData.getD []))) }

/-- The `override` branch of mergeResults (parser-chain.ts lines 171-181):
replace the entity with the new record, keeping the previous entity under
the `previousData` provenance slot. -/
def overrideExisting (p : String) (existing component : ComponentAnalysis) : ComponentAnalysis :=
  { component with
    customData := some (jsSet "previousData" (CustomValue.record existing)
      (jsSet "parsers" (CustomValue.strList [p])
        (component.customData.getD []))) }

/-- mergeDescriptions from parser-chain.ts.  String truthiness is the
non-empty test; the comparison `newDesc.length > existing.length * 1.5`
is written with integers as `2 * newDesc.length > 3 * existing.length`,
which is exact. -/
def mergeDescriptions (existing newDesc : String) : String :=
  if existing = "" then newDesc
  else if newDesc = "" then existing
  else if existing = newDesc then existing
  else if 2 * newDesc.length > 3 * existing.length then newDesc
  else existing

/-- Array.from(new Set([...a, ...b])): concatenation deduplicated keeping
first occurrences, in insertion order. -/
def setUnion (a b : List String) : List String :=
  (a ++ b).foldl (fun acc x => if acc.contains x then acc else acc ++ [x]) []

/-- mergeTags from parser-chain.ts. -/
def mergeTags (existing newTags : Option (List String)) : List String :=
  setUnion (existing.getD []) (newTags.getD [])

/-- The object `{...existingProp, ...prop, description: prop.description ||
existingProp.description}` built in mergeProps. -/
def spreadProp (existingProp prop : PropDefinition) : PropDefinition :=
  { name := prop.name
    type := prop.type
    required := prop.required
    description :=
      match prop.description with
      | some d => if d = "" then existingProp.description else some d
      | none => existingProp.description
    defaultValue :=
      match prop.defaultValue with
      | some v => some v
      | none => existingProp.defaultValue }

/-- mergeProps from parser-chain.ts: keyed by prop name, existing entries
shallow-merged with new ones, unseen names appended. -/
def mergeProps (existing newProps : Option (List PropDefinition)) : List PropDefinition :=
  match existing with
  | none => newProps.getD []
  | some ex =>
    match newProps with
    | none => ex
    | some np =>
      let propMap := ex.foldl (fun m prop => jsSet prop.name prop m)
        ([] : List (String × PropDefinition))
      let propMap := np.foldl (fun m prop =>
        match jsLookup m prop.name with
        | some existingProp => jsSet prop.name (spreadProp existingProp prop) m
        | none => jsSet prop.name prop m) propMap
      propMap.map Prod.snd

/-- The object `{...existingSlot, ...slot}` built in mergeSlots. -/
def spreadSlot (existingSlot slot : SlotDefinition) : SlotDefinition :=
  { name := slot.name
    required := slot.required
    description :=
      match slot.description with
      | some d => some d
      | none => existingSlot.description }

/-- mergeSlots from parser-chain.ts. -/
def mergeSlots (existing newSlots : Option (List SlotDefinition)) : List SlotDefinition :=
  match existing with
  | none => newSlots.getD []
  | some ex =>
    match newSlots with
    | none => ex
    | some ns =>
      let slotMap := ex.foldl (fun m slot => jsSet slot.name slot m)
        ([] : List (String × SlotDefinition))
      let slotMap := ns.foldl (fun m slot =>
        match jsLookup m slot.name with
        | some existingSlot => jsSet slot.name (spreadSlot existingSlot slot) m
        | none => jsSet slot.name slot m) slotMap
      slotMap.map Prod.snd

/-- mergeExamples from parser-chain.ts: keyed by title; a title already in
the map is never replaced by a new example, unseen titles are appended. -/
def mergeExamples (existing newExamples : Option (List ExampleDefinition)) :
    List ExampleDefinition :=
  match existing with
  | none => newExamples.getD []
  | some ex =>
    match newExamples with
    | none => ex
    | some ne =>
      let exampleMap := ex.foldl (fun m e => jsSet e.title e m)
        ([] : List (String × ExampleDefinition))
      let exampleMap := ne.foldl (fun m e =>
        if jsHas m e.title then m else jsSet e.title e m) exampleMap
      exampleMap.map Prod.snd

/-- mergeDependencies from parser-chain.ts. -/
def mergeDependencies (existing newDeps : Option (List String)) : List String :=
  setUnion (existing.getD []) (newDeps.getD [])

/-- mergeRelatedComponents from parser-chain.ts. -/
def mergeRelatedComponents (existing newRelated : Option (List String)) : List String :=
  setUnion (existing.getD []) (newRelated.getD [])

/-- The accessibility map key `type + \x22:\x22 + value`. -/
def a11yKey (item : AccessibilityInfo) : String :=
  item.type ++ ":" ++ item.value

/-- mergeAccessibility from parser-chain.ts. -/
def mergeAccessibility (existing newA11y : Option (List AccessibilityInfo)) :
    List AccessibilityInfo :=
  match existing with
  | none => newA11y.getD []
  | some ex =>
    match newA11y with
    | none => ex
    | some na =>
      let a11yMap := ex.foldl (fun m item => jsSet (a11yKey item) item m)
        ([] : List (String × AccessibilityInfo))
      let a11yMap := na.foldl (fun m item =>
        if jsHas m (a11yKey item) then m else jsSet (a11yKey item) item m) a11yMap
      a11yMap.map Prod.snd

/-- The `merge` branch of mergeResults (parser-chain.ts lines 183-231):
field-by-field reconciliation of the existing entity with the new record. -/
def mergeExisting (p : String) (existing component : ComponentAnalysis) : ComponentAnalysis :=
  { name := if component.name = "" then existing.name else component.name
    description := mergeDescriptions existing.description component.description
    category := jsOr component.category existing.category
    tags := some (mergeTags existing.tags component.tags)
    importPath := jsOr component.importPath existing.importPath
    props := some (mergeProps existing.props component.props)
    slots := some (mergeSlots existing.slots component.slots)
    examples := some (mergeExamples existing.examples component.examples)
    dependencies := some (mergeDependencies existing.dependencies component.dependencies)
    relatedComponents := some (mergeRelatedComponents existing.relatedComponents
      component.relatedComponents)
    accessibility := some (mergeAccessibility existing.accessibility component.accessibility)
    customData := some (jsSet (p ++ "_contribution")
      (CustomValue.contribution component.description component.tags component.props
        component.accessibility)
      (jsSet "parsers" (CustomValue.strList (parsersOf existing.customData ++ [p]))
        (jsMergeRecords (existing.customData.getD []) (component.customData.getD [])))) }

/-- The three merge strategies of mergeResults. -/
inductive MergeStrategy where
  | append
  | merge
  | override
deriving DecidableEq

/-- One iteration of the inner loop of mergeResults: dispatch on whether
the component's key (`component.name.toLowerCase()`) is already in the
component map, and on the strategy. -/
def mergeStep (strategy : MergeStrategy) (p : String)
    (m : List (String × ComponentAnalysis)) (component : ComponentAnalysis) :
    List (String × ComponentAnalysis) :=
  let key := jsToLower component.name
  match jsLookup m key with
  | none => jsSet key (seedComponent p component) m
  | some existing =>
    match strategy with
    | MergeStrategy.append => jsSet key (appendExisting p existing component) m
    | MergeStrategy.override => jsSet key (overrideExisting p existing component) m
    | MergeStrategy.merge => jsSet key (mergeExisting p existing component) m

/-- The component map built by the two nested loops of mergeResults. -/
def mergeFold (results : List ParseResult) (strategy : MergeStrategy) :
    List (String × ComponentAnalysis) :=
  results.foldl (fun m result =>
    result.components.foldl (mergeStep strategy result.parser) m) []

/-- ParserChain.mergeResults: early return on an empty result list, then
Array.from(componentMap.values()). -/
def mergeResults (results : List ParseResult) (strategy : MergeStrategy) :
    List ComponentAnalysis :=
  if results.isEmpty then []
  else (mergeFold results strategy).map Prod.snd

/-- ParseContext from parser-interface.ts; the opaque `config: any` is
embedded as a record of custom values. -/
structure ParseContext where
  storyFilePath : String
  componentFilePath : Option String
  framework : String
  designLibrary : Option String
  baseImportPath : Option String
  config : List (String × CustomValue)
  previousResults : Option (List ParseResult)

/-- ComponentParser from parser-interface.ts.  The async, throwing
`parse` method is embedded as a function into `Except String`, the error
carrying the thrown error's message. -/
structure ComponentParser where
  name : String
  description : String
  parse : ParseContext → Except String ParseResult
  canParse : ParseContext → Bool

/-- ParserConfig from parser-interface.ts. -/
structure ParserConfig where
  name : String
  enabled : Bool
  config : Option (List (String × CustomValue))
  weight : Option Int

/-- ParserChainConfig from parser-interface.ts. -/
structure ParserChainConfig where
  parsers : List ParserConfig
  mergeStrategy : MergeStrategy
  continueOnError : Bool

/-- ParserChain.registerParser: the registry map is keyed by the parser's
name. -/
def registerParser (reg : List (String × ComponentParser)) (parser : ComponentParser) :
    List (String × ComponentParser) :=
  jsSet parser.name parser reg

/-- The sort key `(pc.weight || 0)` used by ParserChain.execute. -/
def weightOf (pc : ParserConfig) : Int :=
  pc.weight.getD 0

/-- Insertion step of a stable insertion sort by weight: the inserted
element precedes every already-placed element of equal weight, because
those come later in the original list. -/
def insertByWeight (x : ParserConfig) : List ParserConfig → List ParserConfig
  | [] => [x]
  | y :: ys => if weightOf y < weightOf x then y :: insertByWeight x ys else x :: y :: ys

/-- Stable sort by ascending weight, embedding the stable
`Array.prototype.sort` with comparator `(a.weight || 0) - (b.weight || 0)`
in ParserChain.execute.  A stable sort's output is uniquely determined by
the key, so any correct embedding of the JavaScript sort equals this one. -/
def sortByWeight : List ParserConfig → List ParserConfig
  | [] => []
  | x :: xs => insertByWeight x (sortByWeight xs)

/-- The filtered and sorted stage list of ParserChain.execute (lines
44-46): enabled entries whose name is registered, by ascending weight. -/
def selectedConfigs (reg : List (String × ComponentParser)) (cfgs : List ParserConfig) :
    List ParserConfig :=
  sortByWeight (cfgs.filter (fun pc => pc.enabled && jsHas reg pc.name))

/-- The `enabledParsers` list of ParserChain.execute (lines 44-50): each
selected stage paired with its parser-specific config (`pc.config || {}`).
The non-null assertion on the registry lookup is embedded as `filterMap`
over a lookup that the selection filter guarantees to succeed. -/
def enabledParsers (reg : List (String × ComponentParser)) (cfgs : List ParserConfig) :
    List (ComponentParser × List (String × CustomValue)) :=
  (selectedConfigs reg cfgs).filterMap (fun pc =>
    (jsLookup reg pc.name).map (fun parser => (parser, pc.config.getD [])))

/-- Mutable state of the loop in ParserChain.execute: the results and
chain-level diagnostics accumulated so far, plus the trace of parsers
whose `parse` method has actually been evaluated (the execution of line
85, recorded whether the call succeeds or throws). -/
structure ExecState where
  results : List ParseResult
  diagnostics : List Diagnostic
  invoked : List String

/-- Initial loop state: no results, no diagnostics, nothing invoked. -/
def initState : ExecState :=
  { results := [], diagnostics := [], invoked := [] }

/-- The Diagnostic synthesized in the catch block of ParserChain.execute
(lines 100-104). -/
def failDiagnostic (parser : ComponentParser) (msg : String) : Diagnostic :=
  { level := "error"
    message := "Parser " ++ parser.name ++ " failed: " ++ msg
    source := some parser.name
    line := none }

/-- One iteration of the loop of ParserChain.execute (lines 58-127): the
canParse gate, the derived per-parser context, the parse call, and the
catch block with its continueOnError dispatch. -/
def execStep (context : ParseContext) (continueOnError : Bool) (st : ExecState)
    (entry : ComponentParser × List (String × CustomValue)) : Except String ExecState :=
  let parser := entry.fst
  if !(parser.canParse context) then Except.ok st
  else
    let parserContext : ParseContext :=
      { context with config := entry.snd, previousResults := some st.results }
    match parser.parse parserContext with
    | Except.ok result =>
      Except.ok { st with
        results := st.results ++ [result]
        invoked := st.invoked ++ [parser.name] }
    | Except.error e =>
      let d := failDiagnostic parser e
      if continueOnError then
        Except.ok { st with
          diagnostics := st.diagnostics ++ [d]
          invoked := st.invoked ++ [parser.name] }
      else
        Except.error ("Parser chain failed at " ++ parser.name ++ ": " ++ d.message)

/-- The loop of ParserChain.execute over the enabled parsers; a thrown
error aborts the whole loop. -/
def executeLoop (context : ParseContext) (continueOnError : Bool) :
    List (ComponentParser × List (String × CustomValue)) → ExecState →
    Except String ExecState
  | [], st => Except.ok st
  | entry :: rest, st =>
    match execStep context continueOnError st entry with
    | Except.ok st' => executeLoop context continueOnError rest st'
    | Except.error e => Except.error e

/-- The post-loop step of ParserChain.execute (lines 120-127): append all
chain-level diagnostics to the diagnostics of the last result. -/
def attachToLast (diags : List Diagnostic) : List ParseResult → List ParseResult
  | [] => []
  | [r] => [{ r with diagnostics := some (r.diagnostics.getD [] ++ diags) }]
  | r :: rest => r :: attachToLast diags rest

/-- ParserChain.execute: select and sort the enabled registered parsers,
run the loop, and attach accumulated diagnostics to the last result when
both lists are non-empty. -/
def execute (reg : List (String × ComponentParser)) (context : ParseContext)
    (config : ParserChainConfig) : Except String (List ParseResult) :=
  match executeLoop context config.continueOnError (enabledParsers reg config.parsers)
      initState with
  | Except.error e => Except.error e
  | Except.ok st =>
    Except.ok (if st.diagnostics.isEmpty || st.results.isEmpty then st.results
      else attachToLast st.diagnostics st.results)

theorem jsHas_iff_mem_keys {α : Type} (m : List (String × α)) (k : String) :
    jsHas m k = true ↔ k ∈ m.map Prod.fst := by
  induction m with
  | nil => simp [jsHas]
  | cons kv rest ih =>
    obtain ⟨k', v'⟩ := kv
    by_cases h : k' = k
    · subst h; simp [jsHas]
    · simp [jsHas, h, ih, Ne.symm h]

theorem jsSet_of_not_has {α : Type} (k : String) (v : α) (m : List (String × α))
    (h : jsHas m k = false) : jsSet k v m = m ++ [(k, v)] := by
  induction m with
  | nil => simp [jsSet]
  | cons kv rest ih =>
    obtain ⟨k', v'⟩ := kv
    simp [jsHas] at h
    simp [jsSet, h.1, ih h.2]

theorem jsLookup_jsSet_self {α : Type} (k : String) (v : α) (m : List (String × α)) :
    jsLookup (jsSet k v m) k = some v := by
  induction m with
  | nil => simp [jsSet, jsLookup]
  | cons kv rest ih =>
    obtain ⟨k', v'⟩ := kv
    by_cases h : k' = k
    · subst h; simp [jsSet, jsLookup]
    · simp [jsSet, jsLookup, h, ih]

theorem jsLookup_jsSet_ne {α : Type} (k k' : String) (v : α) (m : List (String × α))
    (h : k' ≠ k) : jsLookup (jsSet k v m) k' = jsLookup m k' := by
  induction m with
  | nil => simp [jsSet, jsLookup, Ne.symm h]
  | cons kv rest ih =>
    obtain ⟨k'', v''⟩ := kv
    by_cases h2 : k'' = k
    · subst h2; simp [jsSet, jsLookup, Ne.symm h]
    · by_cases h3 : k'' = k'
      · subst h3; simp [jsSet, jsLookup, h2]
      · simp [jsSet, jsLookup, h2, h3, ih]

theorem keys_jsSet {α : Type} (k : String) (v : α) (m : List (String × α)) :
    (jsSet k v m).map Prod.fst =
      if jsHas m k then m.map Prod.fst else m.map Prod.fst ++ [k] := by
  induction m with
  | nil => simp [jsSet, jsHas]
  | cons kv rest ih =>
    obtain ⟨k', v'⟩ := kv
    by_cases h : k' = k
    · subst h; simp [jsSet, jsHas]
    · simp [jsSet, jsHas, h, ih]
      by_cases h2 : jsHas rest k = true <;> simp [h2]

theorem jsLookup_isSome_iff {α : Type} (m : List (String × α)) (k : String) :
    (jsLookup m k).isSome = jsHas m k := by
  induction m with
  | nil => simp [jsLookup, jsHas]
  | cons kv rest ih =>
    obtain ⟨k', v'⟩ := kv
    by_cases h : k' = k
    · subst h; simp [jsLookup, jsHas]
    · simp [jsLookup, jsHas, h, ih]

theorem mem_values_of_jsLookup {α : Type} (m : List (String × α)) (k : String) (v : α)
    (h : jsLookup m k = some v) : v ∈ m.map Prod.snd := by
  induction m with
  | nil => simp [jsLookup] at h
  | cons kv rest ih =>
    obtain ⟨k', v'⟩ := kv
    by_cases h2 : k' = k
    · subst h2; simp [jsLookup] at h; simp [h]
    · simp [jsLookup, h2] at h
      simp [ih h]

/-- One key added to a running first-encounter key list: kept in place if
already seen, appended otherwise. -/
def insertKey (acc : List String) (k : String) : List String :=
  if k ∈ acc then acc else acc ++ [k]

/-- The lower-cased component names of all results, in the order the two
nested loops of mergeResults first encounter them. -/
def encounterKeys (results : List ParseResult) : List String :=
  results.foldl (fun acc r =>
    r.components.foldl (fun acc c => insertKey acc (jsToLower c.name)) acc) []

theorem keys_mergeStep (strategy : MergeStrategy) (p : String)
    (m : List (String × ComponentAnalysis)) (c : ComponentAnalysis) :
    (mergeStep strategy p m c).map Prod.fst =
      insertKey (m.map Prod.fst) (jsToLower c.name) := by
  simp only [mergeStep, insertKey]
  have hsome := jsLookup_isSome_iff (α := ComponentAnalysis) m (jsToLower c.name)
  cases h : jsLookup m (jsToLower c.name) with
  | none =>
    have hhas : jsHas m (jsToLower c.name) = false := by
      rw [← hsome, h]; rfl
    have hmem : jsToLower c.name ∉ m.map Prod.fst := by
      intro hm
      rw [← jsHas_iff_mem_keys] at hm
      rw [hhas] at hm
      exact Bool.false_ne_true hm
    simp [keys_jsSet, hhas, hmem]
  | some existing =>
    have hhas : jsHas m (jsToLower c.name) = true := by
      rw [← hsome, h]; rfl
    have hmem : jsToLower c.name ∈ m.map Prod.fst := (jsHas_iff_mem_keys m _).mp hhas
    cases strategy <;> simp [keys_jsSet, hhas, hmem]

theorem keys_components_fold (strategy : MergeStrategy) (p : String)
    (comps : List ComponentAnalysis) :
    ∀ m : List (String × ComponentAnalysis),
      (comps.foldl (mergeStep strategy p) m).map Prod.fst =
        comps.foldl (fun acc c => insertKey acc (jsToLower c.name)) (m.map Prod.fst) := by
  induction comps with
  | nil => intro m; rfl
  | cons c rest ih =>
    intro m
    simp only [List.foldl_cons]
    rw [ih, keys_mergeStep]

theorem keys_mergeFold (results : List ParseResult) (strategy : MergeStrategy) :
    (mergeFold results strategy).map Prod.fst = encounterKeys results := by
  unfold mergeFold encounterKeys
  suffices h : ∀ m : List (String × ComponentAnalysis),
      (results.foldl (fun m result =>
        result.components.foldl (mergeStep strategy result.parser) m) m).map Prod.fst =
      results.foldl (fun acc r =>
        r.components.foldl (fun acc c => insertKey acc (jsToLower c.name)) acc)
        (m.map Prod.fst) by
    exact h []
  induction results with
  | nil => intro m; rfl
  | cons r rest ih =>
    intro m
    simp only [List.foldl_cons]
    rw [ih, keys_components_fold]

theorem mergeResults_eq_values (results : List ParseResult) (strategy : MergeStrategy) :
    mergeResults results strategy = (mergeFold results strategy).map Prod.snd := by
  unfold mergeResults
  cases results with
  | nil => rfl
  | cons r rest => rfl

theorem mem_insertKey_self (acc : List String) (k : String) : k ∈ insertKey acc k := by
  unfold insertKey
  by_cases h : k ∈ acc <;> simp [h]

theorem mem_insertKey_of_mem (acc : List String) (k x : String) (h : x ∈ acc) :
    x ∈ insertKey acc k := by
  unfold insertKey
  by_cases h2 : k ∈ acc <;> simp [h2, h]

theorem mem_components_fold_of_mem_acc (comps : List ComponentAnalysis) :
    ∀ (acc : List String) (x : String), x ∈ acc →
      x ∈ comps.foldl (fun acc c => insertKey acc (jsToLower c.name)) acc := by
  induction comps with
  | nil => intro acc x h; exact h
  | cons c rest ih =>
    intro acc x h
    simp only [List.foldl_cons]
    exact ih _ x (mem_insertKey_of_mem acc _ x h)

theorem mem_components_fold_of_mem (comps : List ComponentAnalysis) :
    ∀ (acc : List String) (c : ComponentAnalysis), c ∈ comps →
      jsToLower c.name ∈ comps.foldl (fun acc c => insertKey acc (jsToLower c.name)) acc := by
  induction comps with
  | nil => intro acc c h; simp at h
  | cons c0 rest ih =>
    intro acc c h
    simp only [List.foldl_cons]
    rcases List.mem_cons.mp h with h1 | h2
    · subst h1
      exact mem_components_fold_of_mem_acc rest _ _ (mem_insertKey_self acc _)
    · exact ih _ c h2

theorem mem_encounterKeys (results : List ParseResult) (r : ParseResult)
    (c : ComponentAnalysis) (hr : r ∈ results) (hc : c ∈ r.components) :
    jsToLower c.name ∈ encounterKeys results := by
  unfold encounterKeys
  suffices h : ∀ (l : List ParseResult) (acc : List String),
      (∀ x ∈ acc, x ∈ l.foldl (fun acc r =>
        r.components.foldl (fun acc c => insertKey acc (jsToLower c.name)) acc) acc) ∧
      (r ∈ l → jsToLower c.name ∈ l.foldl (fun acc r =>
        r.components.foldl (fun acc c => insertKey acc (jsToLower c.name)) acc) acc) by
    exact (h results []).2 hr
  intro l
  induction l with
  | nil => intro acc; exact ⟨fun x h => h, fun h => by simp at h⟩
  | cons r0 rest ih =>
    intro acc
    constructor
    · intro x hx
      simp only [List.foldl_cons]
      exact (ih _).1 x (mem_components_fold_of_mem_acc r0.components acc x hx)
    · intro hmem
      simp only [List.foldl_cons]
      rcases List.mem_cons.mp hmem with h1 | h2
      · subst h1
        exact (ih _).1 _ (mem_components_fold_of_mem r.components acc c hc)
      · exact (ih _).2 h2

theorem exists_jsLookup_of_mem_keys {α : Type} (m : List (String × α)) (k : String)
    (h : k ∈ m.map Prod.fst) : ∃ v, jsLookup m k = some v := by
  have hhas : jsHas m k = true := (jsHas_iff_mem_keys m k).mpr h
  have hsome : (jsLookup m k).isSome = true := by
    rw [jsLookup_isSome_iff]; exact hhas
  cases h2 : jsLookup m k with
  | none => rw [h2] at hsome; simp at hsome
  | some v => exact ⟨v, rfl⟩

/-- Fixture: a component with the given name and every optional field
absent. -/
def blankComponent (n : String) : ComponentAnalysis :=
  { name := n, description := "", category := none, tags := none, importPath := none,
    props := none, slots := none, examples := none, dependencies := none,
    relatedComponents := none, accessibility := none, customData := none }

/-- Fixture: a result of the given parser with the given components. -/
def resultOf (p : String) (cs : List ComponentAnalysis) : ParseResult :=
  { parser := p, timestamp := "", components := cs, metadata := none, diagnostics := none }

/-- C10: for every input and every strategy, mergeResults returns the
component map's values, and the map's key sequence is exactly the
lower-cased names in first-encounter order — independent of the strategy,
so later contributions (including full replacement under override) never
move an entity's position. -/
theorem mergeResults_first_encounter_order :
    ∀ (results : List ParseResult) (strategy : MergeStrategy),
      mergeResults results strategy = (mergeFold results strategy).map Prod.snd ∧
      (mergeFold results strategy).map Prod.fst = encounterKeys results :=
  fun results strategy =>
    ⟨mergeResults_eq_values results strategy, keys_mergeFold results strategy⟩

/-- C1 counterexample: the names "Button", "button" and " Button " are
pairwise equal after trimming and lower-casing, yet mergeResults keeps
two separate entities: the merge key is the lower-cased name with no
trimming. -/
theorem mergeResults_no_trim_counterexample :
    (jsToLower (jsTrim " Button ") = jsToLower (jsTrim "Button") ∧
     jsToLower (jsTrim "button") = jsToLower (jsTrim "Button")) ∧
    (mergeResults [resultOf "sb" [blankComponent "Button", blankComponent "button",
      blankComponent " Button "]] MergeStrategy.merge).length = 2 := by
  constructor
  · exact ⟨by decide, by decide⟩
  · decide

/-- C1 (amended): entity identity for merge purposes is the lower-cased
name with no whitespace trimming: for every input and strategy the merged
entity count equals the number of distinct lower-cased names, and two
records whose names agree after lower-casing alone always collapse into a
single entity. -/
theorem mergeResults_lowercase_identity :
    ∀ (results : List ParseResult) (strategy : MergeStrategy),
      (mergeResults results strategy).length = (encounterKeys results).length ∧
      (∀ (p ts : String) (c1 c2 : ComponentAnalysis),
        jsToLower c1.name = jsToLower c2.name →
        (mergeResults [⟨p, ts, [c1, c2], none, none⟩] strategy).length = 1) := by
  intro results strategy
  constructor
  · rw [mergeResults_eq_values, List.length_map, ← keys_mergeFold results strategy,
      List.length_map]
  · intro p ts c1 c2 h
    have hkeys := keys_mergeFold [⟨p, ts, [c1, c2], none, none⟩] strategy
    have hlen := congrArg List.length hkeys
    rw [List.length_map] at hlen
    rw [mergeResults_eq_values, List.length_map, hlen]
    simp [encounterKeys, insertKey, ← h]

theorem mergeResults_lowercase_identity_witness :
    (mergeResults [⟨"sb", "", [blankComponent "Button", blankComponent "button"],
      none, none⟩] MergeStrategy.merge).length = 1 :=
  (mergeResults_lowercase_identity [⟨"sb", "", [blankComponent "Button",
    blankComponent "button"], none, none⟩] MergeStrategy.merge).2 "sb" ""
    (blankComponent "Button") (blankComponent "button") (by decide)

/-- C2 counterexample: a record whose name is empty is not dropped by
mergeResults — the output contains exactly one entity, whose name is the
empty string (and mergeResults has no diagnostic output at all). -/
theorem mergeResults_empty_name_counterexample :
    (mergeResults [resultOf "sb" [blankComponent ""]] MergeStrategy.merge).length = 1 ∧
    (mergeResults [resultOf "sb" [blankComponent ""]]
      MergeStrategy.merge).map ComponentAnalysisF.name = [""] := by
  constructor
  · decide
  · decide

/-- C2 (amended): mergeResults is total and treats missing optional
fields as empty defaults, and a record whose name is empty is kept in the
output, keyed under the empty string, with no diagnostic — not dropped. -/
theorem mergeResults_keeps_empty_name :
    ∀ (results : List ParseResult) (strategy : MergeStrategy) (r : ParseResult)
      (c : ComponentAnalysis), r ∈ results → c ∈ r.components → c.name = "" →
      ∃ e, jsLookup (mergeFold results strategy) "" = some e ∧
        e ∈ mergeResults results strategy := by
  intro results strategy r c hr hc hname
  have hkey : jsToLower c.name = "" := by rw [hname]; rfl
  have hmem : ("" : String) ∈ encounterKeys results := by
    rw [← hkey]
    exact mem_encounterKeys results r c hr hc
  rw [← keys_mergeFold results strategy] at hmem
  obtain ⟨e, he⟩ := exists_jsLookup_of_mem_keys _ _ hmem
  refine ⟨e, he, ?_⟩
  rw [mergeResults_eq_values]
  exact mem_values_of_jsLookup _ _ _ he

theorem mergeResults_keeps_empty_name_witness :
    ∃ e, jsLookup (mergeFold [resultOf "sb" [blankComponent ""]] MergeStrategy.merge)
      "" = some e ∧
      e ∈ mergeResults [resultOf "sb" [blankComponent ""]] MergeStrategy.merge :=
  mergeResults_keeps_empty_name [resultOf "sb" [blankComponent ""]] MergeStrategy.merge
    (resultOf "sb" [blankComponent ""]) (blankComponent "")
    (by simp) (by simp [resultOf]) rfl

/-- C6: characterization of mergeDescriptions under the merge strategy:
the new description wins exactly when the existing one is empty, or the
new one is non-empty and strictly longer than 1.5 times the existing one;
otherwise (including equal strings) the existing one is kept.  The second
part ties the helper to the merge-strategy reconciliation. -/
theorem mergeDescriptions_spec :
    (∀ existing newDesc : String,
      mergeDescriptions existing newDesc =
        if existing = "" ∨ (¬ newDesc = "" ∧ 3 * existing.length < 2 * newDesc.length)
        then newDesc else existing) ∧
    (∀ (p : String) (existing component : ComponentAnalysis),
      (mergeExisting p existing component).description =
        mergeDescriptions existing.description component.description) := by
  constructor
  · intro existing newDesc
    unfold mergeDescriptions
    by_cases he : existing = ""
    · simp [he]
    · by_cases hn : newDesc = ""
      · simp [he, hn]
      · by_cases heq : existing = newDesc
        · have hlen : ¬ 3 * existing.length < 2 * newDesc.length := by
            rw [heq]; omega
          simp [he, hn, heq, hlen]
        · by_cases hlt : 2 * newDesc.length > 3 * existing.length
          · have : 3 * existing.length < 2 * newDesc.length := hlt
            simp [he, hn, heq, hlt, this]
          · have : ¬ 3 * existing.length < 2 * newDesc.length := by omega
            simp [he, hn, heq, hlt, this]
  · intro p existing component
    rfl

theorem jsHas_append {α : Type} (m1 m2 : List (String × α)) (k : String) :
    jsHas (m1 ++ m2) k = (jsHas m1 k || jsHas m2 k) := by
  induction m1 with
  | nil => simp [jsHas]
  | cons kv rest ih =>
    obtain ⟨k', v'⟩ := kv
    simp [jsHas, ih, Bool.or_assoc]

/-- C8 counterexample: with a duplicated title inside the existing list,
the later same-titled example replaces the earlier one, so the merged
list is neither first-seen-wins nor the existing list followed by the new
examples. -/
theorem mergeExamples_dup_title_counterexample :
    mergeExamples (some [⟨"A", "1", none⟩, ⟨"A", "2", none⟩]) (some []) =
      [(⟨"A", "2", none⟩ : ExampleDefinition)] ∧
    mergeExamples (some [⟨"A", "1", none⟩, ⟨"A", "2", none⟩]) (some []) ≠
      [(⟨"A", "1", none⟩ : ExampleDefinition), ⟨"A", "2", none⟩] := by
  constructor
  · decide
  · decide

/-- The spec's reading of example merging: from the new list, keep only
examples whose titles have not been seen, in first-occurrence order. -/
def pickNewExamples (seen : List String) : List ExampleDefinition → List ExampleDefinition
  | [] => []
  | e :: es =>
    if e.title ∈ seen then pickNewExamples seen es
    else e :: pickNewExamples (seen ++ [e.title]) es

theorem foldl_jsSet_titles_of_nodup (l : List ExampleDefinition) :
    ∀ m : List (String × ExampleDefinition),
      (l.map ExampleDefinition.title).Nodup →
      (∀ e ∈ l, jsHas m e.title = false) →
      l.foldl (fun m e => jsSet e.title e m) m = m ++ l.map (fun e => (e.title, e)) := by
  induction l with
  | nil => intro m _ _; simp
  | cons e rest ih =>
    intro m hnodup hhas
    rw [List.map_cons, List.nodup_cons] at hnodup
    obtain ⟨hnotin, hnodup2⟩ := hnodup
    simp only [List.foldl_cons]
    have he : jsHas m e.title = false := hhas e (by simp)
    rw [jsSet_of_not_has _ _ _ he]
    rw [ih (m ++ [(e.title, e)]) hnodup2 ?_]
    · simp
    · intro e' he'
      rw [jsHas_append]
      have h1 : jsHas m e'.title = false := hhas e' (by simp [he'])
      have h2 : e'.title ≠ e.title := by
        intro hcontra
        apply hnotin
        rw [← hcontra]
        exact List.mem_map_of_mem ExampleDefinition.title he'
      simp only [jsHas_append, jsHas, Bool.or_false]
      simp only [h1, Bool.false_or]
      simp only [beq_eq_false_iff_ne, ne_eq]
      exact fun hc => h2 (Eq.symm hc)

theorem foldl_pick_examples (l : List ExampleDefinition) :
    ∀ m : List (String × ExampleDefinition),
      l.foldl (fun m e => if jsHas m e.title then m else jsSet e.title e m) m =
        m ++ (pickNewExamples (m.map Prod.fst) l).map (fun e => (e.title, e)) := by
  induction l with
  | nil => intro m; simp [pickNewExamples]
  | cons e rest ih =>
    intro m
    simp only [List.foldl_cons, pickNewExamples]
    by_cases h : jsHas m e.title = true
    · have hmem : e.title ∈ m.map Prod.fst := (jsHas_iff_mem_keys m e.title).mp h
      rw [if_pos h, ih m, if_pos hmem]
    · have hfalse : jsHas m e.title = false := by simpa using h
      have hmem : e.title ∉ m.map Prod.fst := fun hmm =>
        h ((jsHas_iff_mem_keys m e.title).mpr hmm)
      rw [if_neg h, jsSet_of_not_has _ _ _ hfalse, ih (m ++ [(e.title, e)]), if_neg hmem]
      simp

/-- C8 (amended): provided the existing list's titles are pairwise
distinct, an example whose title already exists is never replaced by a
later same-titled example from the new list, and new examples with
unseen titles are appended in first-occurrence order: the merged list is
exactly the existing list followed by the picked new examples.  (Within
the existing list itself, a later duplicate title overwrites the earlier
entry in place, as the counterexample shows, so the proviso is needed.) -/
theorem mergeExamples_first_seen (existing newList : List ExampleDefinition)
    (h : (existing.map ExampleDefinition.title).Nodup) :
    mergeExamples (some existing) (some newList) =
      existing ++ pickNewExamples (existing.map ExampleDefinition.title) newList := by
  simp only [mergeExamples]
  rw [foldl_jsSet_titles_of_nodup existing [] h (fun e _ => rfl)]
  rw [foldl_pick_examples]
  have h1 : (Prod.snd ∘ fun e : ExampleDefinition => (e.title, e)) = id := rfl
  have h2 : (Prod.fst ∘ fun e : ExampleDefinition => (e.title, e)) =
      ExampleDefinition.title := rfl
  simp [List.map_map, h1, h2]

theorem mergeExamples_first_seen_witness :
    mergeExamples (some [⟨"Basic", "b", none⟩])
        (some [⟨"Basic", "x", none⟩, ⟨"Other", "o", none⟩]) =
      [(⟨"Basic", "b", none⟩ : ExampleDefinition)] ++ pickNewExamples
        ([(⟨"Basic", "b", none⟩ : ExampleDefinition)].map ExampleDefinition.title)
        [⟨"Basic", "x", none⟩, ⟨"Other", "o", none⟩] :=
  mergeExamples_first_seen [⟨"Basic", "b", none⟩]
    [⟨"Basic", "x", none⟩, ⟨"Other", "o", none⟩] (by decide)

theorem string_data_append (s t : String) : (s ++ t).data = s.data ++ t.data := by
  cases s
  cases t
  rfl

/-- No parser-derived provenance key `<p>_data` can collide with the
`parsers` contributor key. -/
theorem append_data_ne_parsers (p : String) : p ++ "_data" ≠ "parsers" := by
  intro h
  have hd : p.data ++ "_data".data = "parsers".data := by
    rw [← string_data_append]
    exact congrArg String.data h
  have hlen : p.data.length + 5 = 7 := by
    have h2 := congrArg List.length hd
    simpa using h2
  have h3 : p.data.length = 2 := by omega
  obtain ⟨a, b, hab⟩ := List.length_eq_two.mp h3
  rw [hab] at hd
  simp at hd

/-- C7: under the append strategy, when a record's key is already in the
component map, every normalized field of the existing MergedEntity except
customData is left unchanged; the new record is stored verbatim in
customData under the provenance key `<parser>_data`, the parser
identifier is appended to the contributor list, and the merge step stores
the updated entity back at the same key. -/
theorem appendExisting_frame :
    ∀ (p : String) (existing component : ComponentAnalysis)
      (m : List (String × ComponentAnalysis)),
      ((appendExisting p existing component).name = existing.name ∧
       (appendExisting p existing component).description = existing.description ∧
       (appendExisting p existing component).category = existing.category ∧
       (appendExisting p existing component).tags = existing.tags ∧
       (appendExisting p existing component).importPath = existing.importPath ∧
       (appendExisting p existing component).props = existing.props ∧
       (appendExisting p existing component).slots = existing.slots ∧
       (appendExisting p existing component).examples = existing.examples ∧
       (appendExisting p existing component).dependencies = existing.dependencies ∧
       (appendExisting p existing component).relatedComponents =
         existing.relatedComponents ∧
       (appendExisting p existing component).accessibility = existing.accessibility) ∧
      jsLookup ((appendExisting p existing component).customData.getD []) (p ++ "_data") =
        some (CustomValue.record component) ∧
      parsersOf (appendExisting p existing component).customData =
        parsersOf existing.customData ++ [p] ∧
      (jsLookup m (jsToLower component.name) = some existing →
        mergeStep MergeStrategy.append p m component =
          jsSet (jsToLower component.name) (appendExisting p existing component) m) := by
  intro p existing component m
  refine ⟨⟨rfl, rfl, rfl, rfl, rfl, rfl, rfl, rfl, rfl, rfl, rfl⟩, ?_, ?_, ?_⟩
  · show jsLookup (jsSet "parsers" _ (jsSet (p ++ "_data") _ _)) (p ++ "_data") = _
    rw [jsLookup_jsSet_ne _ _ _ _ (append_data_ne_parsers p)]
    exact jsLookup_jsSet_self _ _ _
  · show parsersOf (some (jsSet "parsers" _ _)) = _
    simp only [parsersOf]
    rw [jsLookup_jsSet_self]
  · intro h
    simp only [mergeStep]
    rw [h]

theorem appendExisting_frame_witness :
    mergeStep MergeStrategy.append "sb" [("btn", blankComponent "Btn")]
        (blankComponent "Btn") =
      jsSet (jsToLower (blankComponent "Btn").name)
        (appendExisting "sb" (blankComponent "Btn") (blankComponent "Btn"))
        [("btn", blankComponent "Btn")] :=
  (appendExisting_frame "sb" (blankComponent "Btn") (blankComponent "Btn")
    [("btn", blankComponent "Btn")]).2.2.2 rfl

theorem string_append_assoc (a b c : String) : a ++ b ++ c = a ++ (b ++ c) := by
  obtain ⟨xa⟩ := a
  obtain ⟨xb⟩ := b
  obtain ⟨xc⟩ := c
  show String.mk (xa ++ xb ++ xc) = String.mk (xa ++ (xb ++ xc))
  rw [List.append_assoc]

/-- C4: with continueOnError = false, as soon as a selected parser that
can handle the context fails, the whole loop aborts with a single error
that names the failing parser; the accumulated earlier results are
discarded (the error carries no results) and the remaining parsers are
never reached, and execute propagates exactly that error. -/
theorem execute_abort_on_failure :
    (∀ (context : ParseContext) (st : ExecState) (p : ComponentParser)
      (pcfg : List (String × CustomValue)) (msg : String)
      (rest : List (ComponentParser × List (String × CustomValue))),
      p.canParse context = true →
      p.parse { context with config := pcfg, previousResults := some st.results } =
        Except.error msg →
      executeLoop context false ((p, pcfg) :: rest) st =
        Except.error ("Parser chain failed at " ++ p.name ++ ": " ++
          ("Parser " ++ p.name ++ " failed: " ++ msg))) ∧
    (∀ (reg : List (String × ComponentParser)) (context : ParseContext)
      (config : ParserChainConfig) (e : String),
      config.continueOnError = false →
      executeLoop context false (enabledParsers reg config.parsers) initState =
        Except.error e →
      execute reg context config = Except.error e) := by
  constructor
  · intro context st p pcfg msg rest hcan hparse
    simp only [executeLoop, execStep, hcan, hparse]
    simp [failDiagnostic]
  · intro reg context config e hcoe hloop
    simp only [execute, hcoe, hloop]

/-- Fixture: a context for pipeline runs. -/
def emptyContext : ParseContext :=
  { storyFilePath := "a.stories.tsx", componentFilePath := none, framework := "react",
    designLibrary := none, baseImportPath := none, config := [], previousResults := none }

/-- Fixture: a parser that always handles the context and always throws. -/
def badParser : ComponentParser :=
  { name := "sb", description := "", parse := fun _ => Except.error "boom",
    canParse := fun _ => true }

theorem execute_abort_on_failure_witness :
    (executeLoop emptyContext false [(badParser, [])] initState =
      Except.error ("Parser chain failed at " ++ badParser.name ++ ": " ++
        ("Parser " ++ badParser.name ++ " failed: " ++ "boom"))) ∧
    (execute (registerParser [] badParser) emptyContext
        ⟨[⟨"sb", true, none, none⟩], MergeStrategy.merge, false⟩ =
      Except.error "Parser chain failed at sb: Parser sb failed: boom") :=
  ⟨(execute_abort_on_failure).1 emptyContext initState badParser [] "boom" [] rfl rfl,
   (execute_abort_on_failure).2 (registerParser [] badParser) emptyContext
    ⟨[⟨"sb", true, none, none⟩], MergeStrategy.merge, false⟩
    "Parser chain failed at sb: Parser sb failed: boom" rfl rfl⟩

/-- C9: a selected analyzer whose canParse returns false on the run's
context is skipped silently: the loop step returns the state unchanged —
no result, no diagnostic, and no parse invocation is recorded — and the
whole loop behaves exactly as if the entry were absent, wherever it
appears in the chain. -/
theorem execute_skips_non_handling :
    ∀ (context : ParseContext) (coe : Bool) (p : ComponentParser)
      (pcfg : List (String × CustomValue)) (st : ExecState)
      (l1 l2 : List (ComponentParser × List (String × CustomValue))),
      p.canParse context = false →
      execStep context coe st (p, pcfg) = Except.ok st ∧
      executeLoop context coe (l1 ++ (p, pcfg) :: l2) st =
        executeLoop context coe (l1 ++ l2) st := by
  intro context coe p pcfg st l1 l2 hcan
  constructor
  · simp [execStep, hcan]
  · induction l1 generalizing st with
    | nil =>
      simp only [List.nil_append, executeLoop]
      have hstep : execStep context coe st (p, pcfg) = Except.ok st := by
        simp [execStep, hcan]
      rw [hstep]
    | cons entry rest ih =>
      simp only [List.cons_append, executeLoop]
      cases hstep : execStep context coe st entry with
      | ok st2 => exact ih st2
      | error e => rfl

/-- Fixture: a parser that never handles the context. -/
def nonHandling : ComponentParser :=
  { name := "nh", description := "", parse := fun _ => Except.ok (resultOf "nh" []),
    canParse := fun _ => false }

theorem execute_skips_non_handling_witness :
    execStep emptyContext true initState (nonHandling, []) = Except.ok initState ∧
    executeLoop emptyContext true ([] ++ (nonHandling, []) :: [(badParser, [])])
        initState =
      executeLoop emptyContext true ([] ++ [(badParser, [])]) initState :=
  execute_skips_non_handling emptyContext true nonHandling [] initState []
    [(badParser, [])] rfl

/-- Fixture: a parser that always handles the context and succeeds. -/
def goodParser : ComponentParser :=
  { name := "ok", description := "",
    parse := fun _ => Except.ok (resultOf "ok" [blankComponent "Btn"]),
    canParse := fun _ => true }

/-- C3 counterexample: with continueOnError = true, a failure of the
first parser while no result exists yet is not dropped: the diagnostic is
attached, after the loop, to the result of the second parser — a result
produced after the failure. -/
theorem execute_diag_after_failure_counterexample :
    execute (registerParser (registerParser [] badParser) goodParser) emptyContext
        ⟨[⟨"sb", true, none, none⟩, ⟨"ok", true, none, none⟩],
          MergeStrategy.merge, true⟩ =
      Except.ok [⟨"ok", "", [blankComponent "Btn"], none,
        some [failDiagnostic badParser "boom"]⟩] :=
  rfl

/-- C3 (amended): with continueOnError = true, a failing analyzer yields
an error-level Diagnostic carrying its identifier and failure message,
appended to the chain-level diagnostic list while execution continues
with the next analyzer; after the whole loop, the accumulated diagnostics
are attached to the last AnalyzerResult of the entire run — not to the
last result produced before the failure — and are dropped only when the
run produced no results at all. -/
theorem execute_diag_attachment :
    (∀ (context : ParseContext) (st : ExecState) (p : ComponentParser)
      (pcfg : List (String × CustomValue)) (msg : String),
      p.canParse context = true →
      p.parse { context with config := pcfg, previousResults := some st.results } =
        Except.error msg →
      execStep context true st (p, pcfg) =
        Except.ok { st with
          diagnostics := st.diagnostics ++ [failDiagnostic p msg]
          invoked := st.invoked ++ [p.name] }) ∧
    (∀ (p : ComponentParser) (msg : String),
      (failDiagnostic p msg).level = "error" ∧
      (failDiagnostic p msg).source = some p.name ∧
      (failDiagnostic p msg).message = "Parser " ++ p.name ++ " failed: " ++ msg) ∧
    (∀ (diags : List Diagnostic) (rs : List ParseResult) (r : ParseResult),
      attachToLast diags (rs ++ [r]) =
        rs ++ [{ r with diagnostics := some (r.diagnostics.getD [] ++ diags) }]) ∧
    (∀ diags : List Diagnostic, attachToLast diags [] = []) ∧
    (∀ (reg : List (String × ComponentParser)) (context : ParseContext)
      (config : ParserChainConfig) (st : ExecState),
      config.continueOnError = true →
      executeLoop context true (enabledParsers reg config.parsers) initState =
        Except.ok st →
      execute reg context config =
        Except.ok (if st.diagnostics.isEmpty || st.results.isEmpty then st.results
          else attachToLast st.diagnostics st.results)) := by
  refine ⟨?_, ?_, ?_, ?_, ?_⟩
  · intro context st p pcfg msg hcan hparse
    simp [execStep, hcan, hparse]
  · intro p msg
    exact ⟨rfl, rfl, rfl⟩
  · intro diags rs r
    induction rs with
    | nil => rfl
    | cons r0 rs ih =>
      have hne : rs ++ [r] ≠ [] := by simp
      cases hsplit : rs ++ [r] with
      | nil => exact absurd hsplit hne
      | cons a t =>
        calc attachToLast diags ((r0 :: rs) ++ [r])
            = attachToLast diags (r0 :: a :: t) := by rw [List.cons_append, hsplit]
          _ = r0 :: attachToLast diags (a :: t) := rfl
          _ = r0 :: attachToLast diags (rs ++ [r]) := by rw [hsplit]
          _ = r0 :: (rs ++
              [{ r with diagnostics := some (r.diagnostics.getD [] ++ diags) }]) := by
                rw [ih]
          _ = (r0 :: rs) ++
              [{ r with diagnostics := some (r.diagnostics.getD [] ++ diags) }] := rfl
  · intro diags
    rfl
  · intro reg context config st hcoe hloop
    simp only [execute, hcoe, hloop]

theorem execute_diag_attachment_witness :
    (execStep emptyContext true initState (badParser, []) =
      Except.ok { initState with
        diagnostics := initState.diagnostics ++ [failDiagnostic badParser "boom"]
        invoked := initState.invoked ++ [badParser.name] }) ∧
    (execute (registerParser (registerParser [] badParser) goodParser) emptyContext
        ⟨[⟨"sb", true, none, none⟩, ⟨"ok", true, none, none⟩],
          MergeStrategy.merge, true⟩ =
      Except.ok
        (if ([failDiagnostic badParser "boom"] : List Diagnostic).isEmpty ||
            ([resultOf "ok" [blankComponent "Btn"]] : List ParseResult).isEmpty then
          [resultOf "ok" [blankComponent "Btn"]]
        else attachToLast [failDiagnostic badParser "boom"]
          [resultOf "ok" [blankComponent "Btn"]])) :=
  ⟨(execute_diag_attachment).1 emptyContext initState badParser [] "boom" rfl rfl,
   (execute_diag_attachment).2.2.2.2
    (registerParser (registerParser [] badParser) goodParser) emptyContext
    ⟨[⟨"sb", true, none, none⟩, ⟨"ok", true, none, none⟩], MergeStrategy.merge, true⟩
    ⟨[resultOf "ok" [blankComponent "Btn"]], [failDiagnostic badParser "boom"],
      ["sb", "ok"]⟩ rfl rfl⟩

theorem mem_insertByWeight (x z : ParserConfig) (l : List ParserConfig) :
    z ∈ insertByWeight x l ↔ z = x ∨ z ∈ l := by
  induction l with
  | nil => simp [insertByWeight]
  | cons y ys ih =>
    unfold insertByWeight
    by_cases hw : weightOf y < weightOf x
    · rw [if_pos hw]
      simp only [List.mem_cons, ih]
      tauto
    · rw [if_neg hw]
      simp only [List.mem_cons]

theorem pairwise_insertByWeight (x : ParserConfig) (l : List ParserConfig)
    (h : l.Pairwise (fun a b => weightOf a ≤ weightOf b)) :
    (insertByWeight x l).Pairwise (fun a b => weightOf a ≤ weightOf b) := by
  induction l with
  | nil => simp [insertByWeight]
  | cons y ys ih =>
    rw [List.pairwise_cons] at h
    obtain ⟨hy, hys⟩ := h
    unfold insertByWeight
    by_cases hw : weightOf y < weightOf x
    · rw [if_pos hw]
      rw [List.pairwise_cons]
      constructor
      · intro z hz
        rcases (mem_insertByWeight x z ys).mp hz with h1 | h2
        · rw [h1]; exact le_of_lt hw
        · exact hy z h2
      · exact ih hys
    · rw [if_neg hw]
      rw [List.pairwise_cons]
      constructor
      · intro z hz
        rcases List.mem_cons.mp hz with h1 | h2
        · rw [h1]; exact Int.not_lt.mp hw
        · exact le_trans (Int.not_lt.mp hw) (hy z h2)
      · exact List.pairwise_cons.mpr ⟨hy, hys⟩

theorem sortByWeight_pairwise (l : List ParserConfig) :
    (sortByWeight l).Pairwise (fun a b => weightOf a ≤ weightOf b) := by
  induction l with
  | nil => simp [sortByWeight]
  | cons x xs ih => exact pairwise_insertByWeight x (sortByWeight xs) ih

theorem filter_insertByWeight (w : Int) (x : ParserConfig) (l : List ParserConfig) :
    (insertByWeight x l).filter (fun pc => weightOf pc == w) =
      if weightOf x = w then x :: l.filter (fun pc => weightOf pc == w)
      else l.filter (fun pc => weightOf pc == w) := by
  induction l with
  | nil =>
    by_cases h : weightOf x = w <;> simp [insertByWeight, h]
  | cons y ys ih =>
    unfold insertByWeight
    by_cases hw : weightOf y < weightOf x
    · rw [if_pos hw]
      by_cases hxw : weightOf x = w
      · have hyw : ¬ weightOf y = w := by omega
        simp [List.filter_cons, hyw, hxw, ih]
      · simp [List.filter_cons, hxw, ih]
    · rw [if_neg hw]
      by_cases hxw : weightOf x = w <;> simp [List.filter_cons, hxw]

theorem filter_sortByWeight (w : Int) (l : List ParserConfig) :
    (sortByWeight l).filter (fun pc => weightOf pc == w) =
      l.filter (fun pc => weightOf pc == w) := by
  induction l with
  | nil => rfl
  | cons x xs ih =>
    show (insertByWeight x (sortByWeight xs)).filter _ = _
    rw [filter_insertByWeight]
    by_cases h : weightOf x = w
    · simp [List.filter_cons, h, ih]
    · simp [List.filter_cons, h, ih]

/-- C5: the stage selection of execute keeps exactly the enabled entries
whose identifier is registered and orders them by ascending weight, equal
weights preserving declaration order (the filtered sublist at each weight
is unchanged — a stable sort); dropping the enabled-but-unregistered
entries from the configuration leaves the whole run unchanged, so they
are silently skipped with no error and no diagnostic. -/
theorem execute_selection_and_order :
    ∀ (reg : List (String × ComponentParser)) (cfgs : List ParserConfig),
      (selectedConfigs reg cfgs).Pairwise (fun a b => weightOf a ≤ weightOf b) ∧
      (∀ w : Int, (selectedConfigs reg cfgs).filter (fun pc => weightOf pc == w) =
        (cfgs.filter (fun pc => pc.enabled && jsHas reg pc.name)).filter
          (fun pc => weightOf pc == w)) ∧
      (∀ (context : ParseContext) (ms : MergeStrategy) (coe : Bool),
        execute reg context ⟨cfgs, ms, coe⟩ =
          execute reg context
            ⟨cfgs.filter (fun pc => pc.enabled && jsHas reg pc.name), ms, coe⟩) := by
  intro reg cfgs
  refine ⟨sortByWeight_pairwise _, fun w => filter_sortByWeight w _, ?_⟩
  intro context ms coe
  have hff : (cfgs.filter (fun pc => pc.enabled && jsHas reg pc.name)).filter
      (fun pc => pc.enabled && jsHas reg pc.name) =
      cfgs.filter (fun pc => pc.enabled && jsHas reg pc.name) := by
    rw [List.filter_filter]
    congr 1
    funext a
    cases h : (a.enabled && jsHas reg a.name) <;> simp [h]
  have hsel : selectedConfigs reg (cfgs.filter (fun pc => pc.enabled && jsHas reg pc.name)) =
      selectedConfigs reg cfgs := by
    unfold selectedConfigs
    rw [hff]
  have hen : enabledParsers reg (cfgs.filter (fun pc => pc.enabled && jsHas reg pc.name)) =
      enabledParsers reg cfgs := by
    unfold enabledParsers
    rw [hsel]
  simp only [execute]
  rw [hen]

/-- Fixture: a parser whose capability gate reads `previousResults`, so it
distinguishes the run's base context from the derived per-parser context. -/
def probeParser : ComponentParser :=
  { name := "pr", description := "",
    parse := fun _ => Except.ok (resultOf "pr" []),
    canParse := fun ctx => ctx.previousResults.isNone }

/-- C9 counterexample: the capability gate is evaluated on the run's base
context (parser-chain.ts line 63), not on the derived per-parser context
built afterwards.  This parser's canParse is false on the derived context
(config and previousResults substituted) yet true on the base context,
and the loop step does invoke its run: a result is produced and the
invocation is recorded, refuting the claim as stated. -/
theorem execute_derived_gate_counterexample :
    probeParser.canParse { emptyContext with
      config := [], previousResults := some initState.results } = false ∧
    probeParser.canParse emptyContext = true ∧
    execStep emptyContext true initState (probeParser, []) =
      Except.ok { initState with
        results := initState.results ++ [resultOf "pr" []]
        invoked := initState.invoked ++ [probeParser.name] } :=
  ⟨rfl, rfl, rfl⟩
